import Mathlib

/-!
Verification of the `reactions-generator` repository against its
natural-language specification.

The development shallowly embeds the pure computational core of the
repository:

* `interpolate.py`  — keyframe interpolation with two easing curves,
  embedded over `ℝ` (Python floats idealized as reals; the sine easing
  uses `Real.cos`, which forces the real field).
* `card.py`         — the per-frame animation state machine (`Card`):
  displayed rank, badge offset, status/ellipsis text.
* `utils.py`        — box layout primitives (`place_grid`), embedded over
  `ℚ` (every Python float value is a rational, and the operations used
  here are exact).
* `text_layout.py`  — the text-fit engine; PIL drawing and measurement
  are out of scope per the spec, so images are modelled by their pixel
  dimensions and text measurement by an oracle parameter.
* `cli.py`          — the frame-streaming pipeline (`render`, `clean_up`),
  modelled as a state machine over an explicit state with an event trace;
  the encoder process is modelled by a running flag, the file system by a
  path-indexed existence predicate, and write failures by an oracle
  giving the frame index whose pipe write raises.
-/

namespace ReactionsGenerator

/-! ## interpolate.py -/

/-- The `Easing` enum of `interpolate.py`. -/
inductive Easing where
  | easeInOutQuad : Easing
  | easeInOutSin : Easing
deriving DecidableEq

/-- The easing remap applied to the normalized fraction `t` inside the
bracketing-segment loop of `interpolate` (lines 28–31 of
`interpolate.py`); `none` leaves `t` unchanged. -/
noncomputable def applyEasing (e : Option Easing) (t : ℝ) : ℝ :=
  match e with
  | some Easing.easeInOutQuad => t * t * (3 - 2 * t)
  | some Easing.easeInOutSin => 0.5 - 0.5 * Real.cos (t * Real.pi)
  | none => t

/-- The bracketing-segment loop of `interpolate` (lines 25–34 of
`interpolate.py`): scan consecutive keyframe pairs; on the first segment
with `times[i] <= value <= times[i+1]`, blend linearly by the (possibly
eased) normalized fraction; if no segment matches, raise. -/
noncomputable def interpLoop (value : ℝ) (e : Option Easing) :
    List ℝ → List ℝ → Except String ℝ
  | t0 :: t1 :: ts, v0 :: v1 :: vs =>
    if t0 ≤ value ∧ value ≤ t1 then
      Except.ok (v0 + applyEasing e ((value - t0) / (t1 - t0)) * (v1 - v0))
    else interpLoop value e (t1 :: ts) (v1 :: vs)
  | _, _ => Except.error "Value is outside the specified range"

/-- `interpolate(value, range_values, output_range, easing)` from
`interpolate.py`: length-mismatch check, clamp at or before the first
keyframe and at or after the last, otherwise the segment loop.
Exceptions are modelled by `Except.error`; indexing `[0]`/`[-1]` on an
empty list is Python's `IndexError`. -/
noncomputable def interpolate (value : ℝ) (range_values output_range : List ℝ)
    (easing : Option Easing) : Except String ℝ :=
  if range_values.length ≠ output_range.length then
    Except.error "Range and output_range must have the same length"
  else
    match range_values, output_range with
    | t0 :: ts, v0 :: vs =>
      if value ≤ t0 then Except.ok v0
      else if (t0 :: ts).getLastD 0 ≤ value then Except.ok ((v0 :: vs).getLastD 0)
      else interpLoop value easing (t0 :: ts) (v0 :: vs)
    | _, _ => Except.error "list index out of range"

/-- Claim C8: mismatched keyframe/value list lengths fail fast with the
length error and never produce a value. -/
theorem C8_interpolate_length_mismatch (t : ℝ) (ts vs : List ℝ) (e : Option Easing)
    (h : ts.length ≠ vs.length) :
    interpolate t ts vs e = Except.error "Range and output_range must have the same length" := by
  unfold interpolate
  rw [if_pos h]

/-- Concrete instance of C8: a two-point time list against a one-point
value list errors out. -/
theorem C8_witness :
    interpolate (1 : ℝ) [0, 2] [5] none =
      Except.error "Range and output_range must have the same length" :=
  C8_interpolate_length_mismatch 1 [0, 2] [5] none (by decide)

/-! ## card.py — the Card animator -/

/-- A raster image abstracted to its pixel dimensions (PIL drawing is out
of scope per the spec; every claim about images concerns sizes only). -/
structure PImage where
  width : ℤ
  height : ℤ
deriving DecidableEq

/-- The frozen `Card` dataclass of `card.py`. The logo is an owned image,
kept only as its dimensions. -/
structure Card where
  title : String
  subtitle : String
  hashtag : String
  task : String
  time : ℝ
  outcome : String
  success : Bool
  rank_before : ℤ
  rank_after : ℤ
  logo : PImage
  animation_start : ℤ
  fps : ℝ
  width : ℤ
  height : ℤ

/-- Python's `str.rjust(width)` with the default space fill: left-pad to
`w` characters, unchanged when already at least that long. -/
def rjust (s : String) (w : Nat) : String :=
  String.mk (List.replicate (w - s.length) ' ') ++ s

/-- The five ellipsis glyph states of `Card.outcome_animation`. -/
def outcome_states : List String := ["   ", ".  ", ".. ", " ..", "  ."]

/-- `Card.outcome_animation` (lines 121–127 of `card.py`).
Python's `//` on ints is floor division (`Int.fdiv`) and `%` with a
positive modulus yields a nonnegative remainder (`Int.emod`). -/
def Card.outcome_animation (c : Card) (frame : ℤ) : String :=
  if c.animation_start + 3 ≤ frame then
    rjust c.outcome (outcome_states.headD "").length
  else
    outcome_states.getD ((frame.fdiv 6).emod 5).toNat ""

/-- Python's built-in `round`: round half to even (banker's rounding);
away from exact halves it agrees with Mathlib's `round` (nearest, half
up). -/
noncomputable def pyRound (x : ℝ) : ℤ :=
  if Int.fract x = 1 / 2 then (if Even ⌊x⌋ then ⌊x⌋ else ⌊x⌋ + 1) else round x

/-- The rank interpolation of `Card.render_frame` (lines 155–171 of
`card.py`), before rounding: a two-point schedule on success, the
three-point "spike to 1st" schedule on failure. -/
noncomputable def Card.rank_value (c : Card) (frame : ℤ) : Except String ℝ :=
  if c.success then
    interpolate (frame : ℝ)
      [(c.animation_start : ℝ) - 15, (c.animation_start : ℝ) + 5]
      [(c.rank_before : ℝ), (c.rank_after : ℝ)] none
  else
    interpolate (frame : ℝ)
      [(c.animation_start : ℝ) - 15, (c.animation_start : ℝ), (c.animation_start : ℝ) + 6]
      [(c.rank_before : ℝ), 1, (c.rank_before : ℝ)] none

/-- The displayed rank: `round(interpolate(...))` in `Card.render_frame`. -/
noncomputable def Card.rank (c : Card) (frame : ℤ) : Except String ℤ :=
  (c.rank_value frame).map pyRound

/-- The badge horizontal offset `place_position` of `Card.render_frame`
(lines 173–191 of `card.py`): `0` fully onscreen, `1` fully offscreen;
quadratic ease on success, the three-point sine ease on failure. -/
noncomputable def Card.place_position (c : Card) (frame : ℤ) : Except String ℝ :=
  if c.success then
    interpolate (frame : ℝ)
      [(c.animation_start : ℝ) - 15, (c.animation_start : ℝ) + 5]
      [1, 0] (some Easing.easeInOutQuad)
  else
    interpolate (frame : ℝ)
      [(c.animation_start : ℝ) - 15, (c.animation_start : ℝ), (c.animation_start : ℝ) + 6]
      [1, 0.7, 1] (some Easing.easeInOutSin)

/-- The concrete card of the end-to-end scenario of claim C3:
`rank_before=100, rank_after=1, success=True, animation_start=900,
fps=30`. Fields irrelevant to the scenario take the obvious defaults. -/
noncomputable def scenarioCard : Card :=
  { title := "", subtitle := "", hashtag := "", task := "A", time := 0,
    outcome := "AC", success := true, rank_before := 100, rank_after := 1,
    logo := ⟨152, 152⟩, animation_start := 900, fps := 30,
    width := 1000, height := 306 }

/-- Claim C3: for the scenario card, frame 885 gives badge offset exactly
1 (fully offscreen) and displayed rank exactly 100; frame 905 gives badge
offset exactly 0 and displayed rank exactly 1. -/
theorem C3_scenario_frames :
    scenarioCard.place_position 885 = Except.ok 1 ∧
    scenarioCard.rank 885 = Except.ok 100 ∧
    scenarioCard.place_position 905 = Except.ok 0 ∧
    scenarioCard.rank 905 = Except.ok 1 := by
  refine ⟨?_, ?_, ?_, ?_⟩ <;>
    simp [scenarioCard, Card.place_position, Card.rank, Card.rank_value, interpolate,
      pyRound, Except.map] <;>
    norm_num [Int.fract_intCast, round_intCast]

/-- Claim C5: at or after `animation_start + 3` the status text is the
outcome code right-justified to the 3-character ellipsis field,
independent of the frame (in particular of its parity); strictly before
that pivot it is the five-glyph ellipsis state indexed by
`(frame // 6) mod 5`. -/
theorem C5_status_text (c : Card) (frame : ℤ) :
    (c.animation_start + 3 ≤ frame →
      c.outcome_animation frame = rjust c.outcome 3) ∧
    (frame < c.animation_start + 3 →
      c.outcome_animation frame =
        ["   ", ".  ", ".. ", " ..", "  ."].getD ((frame.fdiv 6).emod 5).toNat "") := by
  constructor
  · intro h
    simp [Card.outcome_animation, if_pos h, outcome_states]
    congr 1
  · intro h
    simp [Card.outcome_animation, if_neg (not_le.mpr h), outcome_states]

/-- Concrete instance of C5: a card with pivot 900 and outcome `AC` shows
`" AC"` at frame 903 (and at the odd frame 905), and the ellipsis glyph
`".. "` at frame 13 (`13 // 6 = 2`). -/
theorem C5_witness :
    scenarioCard.outcome_animation 903 = rjust "AC" 3 ∧
    scenarioCard.outcome_animation 905 = rjust "AC" 3 ∧
    scenarioCard.outcome_animation 13 =
      ["   ", ".  ", ".. ", " ..", "  ."].getD (((13 : ℤ).fdiv 6).emod 5).toNat "" :=
  ⟨(C5_status_text scenarioCard 903).1 (by norm_num [scenarioCard]),
   (C5_status_text scenarioCard 905).1 (by norm_num [scenarioCard]),
   (C5_status_text scenarioCard 13).2 (by norm_num [scenarioCard])⟩

/-! ## utils.py — layout primitives -/

/-- A floating-point box `(left, top, right, bottom)`; Python float
values are dyadic rationals and the operations used by `place_grid` are
exact over `ℚ`. -/
def Box : Type := ℚ × ℚ × ℚ × ℚ

/-- `place_grid` from `utils.py`: ceiling on left/top, floor on
right/bottom. -/
def place_grid (box : Box) : ℤ × ℤ × ℤ × ℤ :=
  (⌈box.1⌉, ⌈box.2.1⌉, ⌊box.2.2.1⌋, ⌊box.2.2.2⌋)

/-- The area of an integer pixel region `(l, t, r, b)`; a region with
`r < l` or `b < t` is empty and has area `0`. -/
def intArea (b : ℤ × ℤ × ℤ × ℤ) : ℤ :=
  max (b.2.2.1 - b.1) 0 * max (b.2.2.2 - b.2.1) 0

/-- Claim C7: for a box with `right ≥ left` and `bottom ≥ top`,
`place_grid` returns `(⌈left⌉, ⌈top⌉, ⌊right⌋, ⌊bottom⌋)` and the snapped
region's area never exceeds the box's area. -/
theorem C7_place_grid_shrinks (l t r b : ℚ) (hlr : l ≤ r) (htb : t ≤ b) :
    place_grid (l, t, r, b) = (⌈l⌉, ⌈t⌉, ⌊r⌋, ⌊b⌋) ∧
    (intArea (place_grid (l, t, r, b)) : ℚ) ≤ (r - l) * (b - t) := by
  refine ⟨rfl, ?_⟩
  have hw : ((max (⌊r⌋ - ⌈l⌉) 0 : ℤ) : ℚ) ≤ r - l := by
    rcases le_total (⌊r⌋ - ⌈l⌉) 0 with h | h
    · rw [max_eq_right h]
      push_cast
      linarith
    · rw [max_eq_left h]
      push_cast
      have h1 : (⌊r⌋ : ℚ) ≤ r := Int.floor_le r
      have h2 : l ≤ (⌈l⌉ : ℚ) := Int.le_ceil l
      linarith
  have hh : ((max (⌊b⌋ - ⌈t⌉) 0 : ℤ) : ℚ) ≤ b - t := by
    rcases le_total (⌊b⌋ - ⌈t⌉) 0 with h | h
    · rw [max_eq_right h]
      push_cast
      linarith
    · rw [max_eq_left h]
      push_cast
      have h1 : (⌊b⌋ : ℚ) ≤ b := Int.floor_le b
      have h2 : t ≤ (⌈t⌉ : ℚ) := Int.le_ceil t
      linarith
  have hw0 : (0 : ℚ) ≤ ((max (⌊r⌋ - ⌈l⌉) 0 : ℤ) : ℚ) := by
    push_cast
    exact le_max_right _ _
  have hh0 : (0 : ℚ) ≤ ((max (⌊b⌋ - ⌈t⌉) 0 : ℤ) : ℚ) := by
    push_cast
    exact le_max_right _ _
  calc (intArea (place_grid (l, t, r, b)) : ℚ)
      = ((max (⌊r⌋ - ⌈l⌉) 0 : ℤ) : ℚ) * ((max (⌊b⌋ - ⌈t⌉) 0 : ℤ) : ℚ) := by
        simp [intArea, place_grid]
    _ ≤ (r - l) * (b - t) := mul_le_mul hw hh hh0 (by linarith)

/-- Concrete instance of C7: the box `(1/3, 1/4, 5/2, 7/2)` snaps to
`(1, 1, 2, 3)`, of area `2 ≤ (5/2 - 1/3) * (7/2 - 1/4)`. -/
theorem C7_witness :
    place_grid (1/3, 1/4, 5/2, 7/2) = (1, 1, 2, 3) ∧
    (intArea (place_grid (1/3, 1/4, 5/2, 7/2)) : ℚ) ≤ (5/2 - 1/3) * (7/2 - 1/4) :=
  ⟨by rw [(C7_place_grid_shrinks (1/3) (1/4) (5/2) (7/2) (by norm_num) (by norm_num)).1]
      norm_num [Prod.ext_iff, Int.ceil_eq_iff, Int.floor_eq_iff],
   (C7_place_grid_shrinks (1/3) (1/4) (5/2) (7/2) (by norm_num) (by norm_num)).2⟩

/-! ## text_layout.py — the text-fit engine

PIL image allocation and resizing are abstracted by their documented
size contract (`Image.new` and `Image.resize` return an image of exactly
the requested size); text measurement is an oracle parameter standing
for the font/measure capability the spec scopes out. Drawing calls
mutate pixels, never dimensions, and are dropped. -/

/-- `Image.new` / `init_transparent_image`: an image of exactly the
requested dimensions. -/
def init_transparent_image (d : ℤ × ℤ) : PImage := ⟨d.1, d.2⟩

/-- `Image.resize`: an image of exactly the requested dimensions. -/
def PImage.resize (_ : PImage) (d : ℤ × ℤ) : PImage := ⟨d.1, d.2⟩

/-- The inner scan of `try_adding_endline`: the index of the space
closest to `middle` (scanning left to right, strict improvement only),
`-1` when the text has no space. -/
def best_space_position (chars : List Char) (middle : ℤ) : ℤ :=
  (List.range chars.length).foldl
    (fun best i =>
      if chars.getD i 'x' = ' ' ∧ |(i : ℤ) - middle| < |best - middle| then (i : ℤ) else best)
    (-1)

/-- `try_adding_endline` from `text_layout.py`: texts shorter than 15
characters are never wrapped; otherwise replace the space closest to the
midpoint by a newline, when one exists. -/
def try_adding_endline (text : String) : Bool × String :=
  let chars := text.toList
  if chars.length < 15 then (false, text)
  else
    let middle : ℤ := (chars.length : ℤ) / 2
    let bp := best_space_position chars middle
    if bp = -1 then (false, text)
    else (true, String.mk (chars.take bp.toNat ++ '\n' :: chars.drop (bp.toNat + 1)))

/-- `auto_resize_text` from `text_layout.py`, with text measurement
abstracted as the oracle `font : text ↦ size ↦ multiline ↦ (w, h)`.
Returns the produced image (modelled by its dimensions). -/
def auto_resize_text (text : String) (dimensions : ℚ × ℚ)
    (font : String → ℕ → Bool → ℚ × ℚ)
    (allow_multiline allow_compression _align_center : Bool)
    (max_size : ℤ) : PImage :=
  let width : ℤ := ⌊dimensions.1⌋
  let height : ℤ := ⌊dimensions.2⌋
  let max_horizontal_compression : ℚ := if allow_compression then 3/2 else 1
  let measure_size : ℕ := 10
  if text = "" then init_transparent_image (width, height)
  else
    let mt := if allow_multiline then try_adding_endline text else (false, text)
    let measure_width : ℚ := (font mt.2 measure_size mt.1).1 * (1 + 2 / 64)
    let measure_height : ℚ := (font mt.2 measure_size mt.1).2 * (1 + 2 / 64)
    let width_ratio := measure_width / (measure_size : ℚ)
    let height_ratio := measure_height / (measure_size : ℚ)
    let font_size : ℤ := ⌊min (min ((width : ℚ) / width_ratio * max_horizontal_compression)
        ((height : ℚ) / height_ratio)) (max_size : ℚ)⌋
    let image := init_transparent_image
      (max width ⌊(font_size : ℚ) * width_ratio⌋, max height ⌊(font_size : ℚ) * height_ratio⌋)
    image.resize (width, height)

/-- Counterexample to claim C6 as stated: for the fractional target box
`(5/2, 7/2)` the produced image has pixel dimensions `(2, 3)`, which are
not equal to the requested dimensions. -/
theorem C6_counterexample :
    auto_resize_text "" (5/2, 7/2) (fun _ _ _ => (1, 1)) false false false 150 =
      ⟨2, 3⟩ ∧
    ¬(((2 : ℤ) : ℚ) = 5/2 ∧ ((3 : ℤ) : ℚ) = 7/2) := by
  constructor
  · show PImage.mk ⌊(5/2 : ℚ)⌋ ⌊(7/2 : ℚ)⌋ = PImage.mk 2 3
    norm_num [Int.floor_eq_iff]
  · norm_num

/-- Claim C6 as amended: for every input text (including empty text),
every nonnegative target box dimensions, every measurement oracle and
every combination of the flags, `auto_resize_text` returns an image
whose pixel dimensions are exactly the floor of the requested target box
dimensions (the target box's integer pixel size). -/
theorem C6_output_dimensions (text : String) (dims : ℚ × ℚ)
    (font : String → ℕ → Bool → ℚ × ℚ) (am ac cc : Bool) (max_size : ℤ)
    (hw : 0 ≤ dims.1) (hh : 0 ≤ dims.2) :
    auto_resize_text text dims font am ac cc max_size = ⟨⌊dims.1⌋, ⌊dims.2⌋⟩ := by
  unfold auto_resize_text
  split <;> split <;> rfl

/-- Concrete instance of the amended C6: a nonempty text in a `100 × 40`
box comes back exactly `100 × 40`. -/
theorem C6_witness :
    auto_resize_text "hello world, a long title" (100, 40)
      (fun t _ m => ((t.length : ℚ) * 6, if m then 24 else 12)) true true false 150 =
      ⟨100, 40⟩ := by
  have h := C6_output_dimensions "hello world, a long title" (100, 40)
    (fun t _ m => ((t.length : ℚ) * 6, if m then 24 else 12)) true true false 150
    (by norm_num) (by norm_num)
  rw [h]
  norm_num [Int.floor_eq_iff]

/-! ## cli.py — the frame-streaming pipeline

`render` (lines 141–186 of `cli.py`) spawns the encoder process writing
to a temporary file next to the final destination, streams frames
`0..last_frame` to its input pipe, and on success closes the pipe,
awaits the process and atomically renames the temporary file onto the
destination; on any failure it runs `clean_up` (terminate + wait if the
child has not been reaped) and re-raises.

The embedding models the process by a `running` flag (in the model a
child is running until terminated or awaited, which is exactly when
`process.poll()` returns `None`), the file system by a path-indexed
existence predicate, pipe-write failures by an oracle `failAt` naming
the frame index whose write raises, and every externally visible action
by an event appended to a trace. -/

/-- The characters after the last `/` of a character list. -/
def baseL (l : List Char) : List Char :=
  (l.reverse.takeWhile (fun c => c ≠ '/')).reverse

/-- `os.path.basename`: the characters after the last `/`. -/
def basename (p : String) : String :=
  String.mk (baseL p.toList)

/-- `os.path.dirname` (POSIX): the part before the last `/`, with
trailing slashes stripped unless the result consists only of slashes. -/
def dirname (p : String) : String :=
  let head := (p.toList.reverse.dropWhile (fun c => c ≠ '/')).reverse
  if head ≠ [] ∧ head.any (fun c => c ≠ '/') then
    String.mk ((head.reverse.dropWhile (fun c => c = '/')).reverse)
  else String.mk head

/-- `os.path.join` (POSIX, two components): an absolute second component
wins; otherwise concatenate, inserting a `/` unless the first component
is empty or already ends in one. -/
def joinPath (d b : String) : String :=
  if b.toList.head? = some '/' then b
  else if d = "" ∨ d.toList.getLast? = some '/' then d ++ b
  else d ++ "/" ++ b

/-- The temporary output path of `render`:
`os.path.join(dirname(output_path), "tmp_" + basename(output_path))`. -/
def tmpName (p : String) : String :=
  joinPath (dirname p) ("tmp_" ++ basename p)

/-- The externally visible actions of one render job, in order. -/
inductive Event where
  | spawn : Event
  | write : ℕ → Event
  | closeStdin : Event
  | wait : Event
  | terminate : Event
  | replace : String → String → Event
deriving DecidableEq

/-- The state of one render job: whether the encoder child is alive
(unreaped), which paths exist on disk, and the trace of actions so
far. -/
structure RenderState where
  running : Bool
  fs : String → Bool
  events : List Event

/-- `clean_up` from `render` (lines 169–173 of `cli.py`): when
`process.poll()` is `None` (the child has not been reaped), terminate
the child and wait for it; otherwise do nothing. This closure is also
registered with `atexit`. -/
def clean_up (s : RenderState) : RenderState :=
  if s.running then
    { s with running := false, events := s.events ++ [Event.terminate, Event.wait] }
  else s

/-- The frame loop of `render` (lines 179–180 of `cli.py`): write each
frame in order to the encoder's stdin; a write raises `BrokenPipeError`
exactly at the frame named by the `failAt` oracle. -/
def writeFrames (failAt : Option ℕ) : List ℕ → RenderState → RenderState × Except String Unit
  | [], s => (s, Except.ok ())
  | n :: rest, s =>
    if failAt = some n then (s, Except.error "BrokenPipeError")
    else writeFrames failAt rest { s with events := s.events ++ [Event.write n] }

/-- `render` (lines 141–186 of `cli.py`). Spawning the encoder creates
the temporary output file; on success the input channel is closed, the
process awaited, and the temporary file renamed onto `output_path` by
`os.replace`; on a write failure `clean_up` runs and the exception
propagates. -/
def render (output_path : String) (last_frame : ℕ) (failAt : Option ℕ)
    (fs0 : String → Bool) : RenderState × Except String Unit :=
  let tmp := tmpName output_path
  let s0 : RenderState :=
    { running := true
      fs := fun q => if q = tmp then true else fs0 q
      events := [Event.spawn] }
  match writeFrames failAt (List.range (last_frame + 1)) s0 with
  | (s, Except.ok _) =>
    let s1 : RenderState := { s with events := s.events ++ [Event.closeStdin] }
    let s2 : RenderState :=
      { s1 with running := false, events := s1.events ++ [Event.wait] }
    let s3 : RenderState :=
      { s2 with
        fs := fun q => if q = output_path then true else if q = tmp then false else s2.fs q
        events := s2.events ++ [Event.replace tmp output_path] }
    (s3, Except.ok ())
  | (s, Except.error e) => (clean_up s, Except.error e)

/-- Claim C9: the cleanup hook is idempotent — it terminates a
still-running child exactly once (one `terminate` followed by one
`wait`), does nothing when the child is already reaped, and composed
with itself equals a single call. -/
theorem C9_clean_up_idempotent (s : RenderState) :
    clean_up (clean_up s) = clean_up s ∧
    (s.running = true →
      (clean_up s).running = false ∧
      (clean_up s).events = s.events ++ [Event.terminate, Event.wait]) ∧
    (s.running = false → clean_up s = s) := by
  refine ⟨?_, ?_, ?_⟩
  · by_cases h : s.running <;> simp [clean_up, h]
  · intro h
    simp [clean_up, h]
  · intro h
    simp [clean_up, h]

/-- Concrete instance of C9: for a job whose child is still running,
one cleanup call terminates and awaits it, and a second call changes
nothing. -/
theorem C9_witness :
    clean_up (clean_up ⟨true, fun _ => false, []⟩) = clean_up ⟨true, fun _ => false, []⟩ ∧
    (clean_up (⟨true, fun _ => false, []⟩ : RenderState)).running = false ∧
    (clean_up (⟨true, fun _ => false, []⟩ : RenderState)).events =
      [Event.terminate, Event.wait] :=
  ⟨(C9_clean_up_idempotent ⟨true, fun _ => false, []⟩).1,
   ((C9_clean_up_idempotent ⟨true, fun _ => false, []⟩).2.1 rfl).1,
   ((C9_clean_up_idempotent ⟨true, fun _ => false, []⟩).2.1 rfl).2⟩

/-! ### The temporary path differs from the destination path -/

/-- `takeWhile` passes over a prefix whose elements all satisfy the
predicate. -/
theorem takeWhile_append_pos {α : Type} (p : α → Bool) :
    ∀ (xs ys : List α), (∀ a ∈ xs, p a = true) →
      List.takeWhile p (xs ++ ys) = xs ++ List.takeWhile p ys
  | [], _, _ => by simp
  | x :: xs, ys, h => by
    rw [List.cons_append, List.takeWhile_cons, if_pos (h x (List.mem_cons_self x xs)),
      takeWhile_append_pos p xs ys (fun a ha => h a (List.mem_cons_of_mem x ha)),
      List.cons_append]

/-- No character of a basename is a slash. -/
theorem baseL_no_slash (l : List Char) : ∀ c ∈ baseL l, c ≠ '/' := by
  intro c hc
  have := List.mem_takeWhile_imp (List.mem_reverse.mp hc)
  exact of_decide_eq_true this

/-- Appending a slash-free suffix to an empty or slash-terminated prefix
leaves exactly that suffix as the basename. -/
theorem baseL_append_noslash (u v : List Char) (hv : ∀ c ∈ v, c ≠ '/')
    (hu : u = [] ∨ u.getLast? = some '/') : baseL (u ++ v) = v := by
  have hv' : ∀ c ∈ v.reverse, (fun c => decide (c ≠ '/')) c = true := by
    intro c hc
    exact decide_eq_true (hv c (List.mem_reverse.mp hc))
  unfold baseL
  rw [List.reverse_append]
  rcases hu with h | h
  · subst h
    rw [List.reverse_nil, takeWhile_append_pos _ v.reverse [] hv']
    simp
  · have hh : u.reverse.head? = some '/' := by rw [List.head?_reverse]; exact h
    obtain ⟨t, ht⟩ := List.head?_eq_some_iff.mp hh
    rw [ht, takeWhile_append_pos _ v.reverse ('/' :: t) hv', List.takeWhile_cons]
    simp

/-- The basename of the temporary path carries the `tmp_` prefix. -/
theorem basename_tmpName (p : String) :
    basename (tmpName p) = "tmp_" ++ basename p := by
  have hv : ∀ c ∈ ("tmp_" ++ basename p).toList, c ≠ '/' := by
    intro c hc
    have hc' : c ∈ 't' :: 'm' :: 'p' :: '_' :: baseL p.toList := hc
    simp only [List.mem_cons] at hc'
    rcases hc' with rfl | rfl | rfl | rfl | hmem
    · decide
    · decide
    · decide
    · decide
    · exact baseL_no_slash p.toList c hmem
  unfold tmpName joinPath
  split
  · rename_i hhead
    exact absurd hhead (by rw [show ("tmp_" ++ basename p).toList.head? = some 't' from rfl]; decide)
  · split
    · rename_i hd
      have : (dirname p ++ ("tmp_" ++ basename p)).toList =
          (dirname p).toList ++ ("tmp_" ++ basename p).toList := rfl
      show String.mk (baseL _) = _
      rw [this, baseL_append_noslash _ _ hv]
      · rfl
      · rcases hd with hd | hd
        · left; rw [hd]; rfl
        · right; exact hd
    · have : (dirname p ++ "/" ++ ("tmp_" ++ basename p)).toList =
          ((dirname p).toList ++ ['/']) ++ ("tmp_" ++ basename p).toList := by
        show ((dirname p).toList ++ ['/']) ++ _ = _
        rfl
      show String.mk (baseL _) = _
      rw [this, baseL_append_noslash _ _ hv (Or.inr (List.getLast?_concat _))]
      rfl

/-- The temporary output path is never the destination path itself: its
basename carries the `tmp_` prefix, so the two paths differ. -/
theorem tmpName_ne (p : String) : tmpName p ≠ p := by
  intro h
  have h2 := congrArg basename h
  rw [basename_tmpName] at h2
  have h3 := congrArg String.length h2
  rw [String.length_append] at h3
  have h4 : ("tmp_" : String).length = 4 := rfl
  omega

/-! ### The frame loop -/

/-- With no failing frame, the loop records one write event per frame,
in list order, touches nothing else, and succeeds. -/
theorem writeFrames_ok : ∀ (l : List ℕ) (s : RenderState),
    writeFrames none l s =
      ({ s with events := s.events ++ l.map Event.write }, Except.ok ())
  | [], s => by simp [writeFrames]
  | n :: rest, s => by
    rw [writeFrames, if_neg (by simp), writeFrames_ok rest]
    simp

/-- When the failing frame is in the list and not in the already-written
prefix, the loop records exactly the writes before it, touches nothing
else, and raises. -/
theorem writeFrames_fail (k : ℕ) : ∀ (l₁ l₂ : List ℕ) (s : RenderState), k ∉ l₁ →
    writeFrames (some k) (l₁ ++ k :: l₂) s =
      ({ s with events := s.events ++ l₁.map Event.write }, Except.error "BrokenPipeError")
  | [], l₂, s, _ => by
    rw [List.nil_append, writeFrames, if_pos rfl]
    simp
  | n :: l₁, l₂, s, h => by
    rw [List.cons_append, writeFrames,
      if_neg (by simp; exact fun hkn => h (hkn ▸ List.mem_cons_self n l₁)),
      writeFrames_fail k l₁ l₂ _ (fun hm => h (List.mem_cons_of_mem n hm))]
    simp

/-- Claim C2: a clean render of frames `0..N` writes exactly `N + 1`
frames in increasing order, then closes the input channel once, awaits
the process once, and only then performs exactly one rename, of the
temporary path derived from the destination onto the destination — the
full event trace in order — leaving the process reaped, no residual
temporary file, and the output present at the destination. -/
theorem C2_render_success (p : String) (N : ℕ) (fs0 : String → Bool) :
    (render p N none fs0).2 = Except.ok () ∧
    (render p N none fs0).1.events =
      Event.spawn :: ((List.range (N + 1)).map Event.write ++
        [Event.closeStdin, Event.wait, Event.replace (tmpName p) p]) ∧
    (render p N none fs0).1.running = false ∧
    (render p N none fs0).1.fs p = true ∧
    (render p N none fs0).1.fs (tmpName p) = false := by
  have hne : tmpName p ≠ p := tmpName_ne p
  simp [render, writeFrames_ok, hne]

/-- Claim C1: if the pipe write of frame `k ≤ N` raises, `render`
records the successful writes `0..k-1`, terminates and awaits the
still-running encoder child, never renames the temporary file (the full
event trace in order), leaves nothing at a previously absent destination
path, and propagates the failure to the caller. -/
theorem C1_render_write_failure (p : String) (N k : ℕ) (fs0 : String → Bool)
    (hk : k ≤ N) (hdest : fs0 p = false) :
    (render p N (some k) fs0).2 = Except.error "BrokenPipeError" ∧
    (render p N (some k) fs0).1.events =
      Event.spawn :: ((List.range k).map Event.write ++ [Event.terminate, Event.wait]) ∧
    (render p N (some k) fs0).1.running = false ∧
    (render p N (some k) fs0).1.fs p = false := by
  have hsplit : List.range (N + 1) = List.range k ++ k :: (List.range (N - k)).map (k + 1 + ·) := by
    have h1 : N + 1 = k + (N + 1 - k) := by omega
    have h2 : N + 1 - k = (N - k) + 1 := by omega
    rw [h1, List.range_add, h2, List.range_succ_eq_map, List.map_cons, List.map_map]
    refine congrArg (List.range k ++ ·) ?_
    refine congrArg₂ List.cons (by omega) ?_
    refine congrArg (fun f => List.map f (List.range (N - k))) ?_
    funext i
    simp [Function.comp]
    omega
  have hne : p ≠ tmpName p := fun h => tmpName_ne p h.symm
  simp only [render, hsplit]
  rw [writeFrames_fail k _ _ _ (by simp)]
  refine ⟨rfl, ?_, ?_, ?_⟩
  · simp [clean_up]
  · simp [clean_up]
  · simp [clean_up, hne, hdest]

/-- Concrete instance of C1: rendering three frames to `"out/a.mp4"`
with the write of frame 1 failing terminates and awaits the encoder,
performs no rename, and leaves the destination absent. -/
theorem C1_witness :
    (render "out/a.mp4" 2 (some 1) (fun _ => false)).2 = Except.error "BrokenPipeError" ∧
    (render "out/a.mp4" 2 (some 1) (fun _ => false)).1.events =
      Event.spawn :: ((List.range 1).map Event.write ++ [Event.terminate, Event.wait]) ∧
    (render "out/a.mp4" 2 (some 1) (fun _ => false)).1.running = false ∧
    (render "out/a.mp4" 2 (some 1) (fun _ => false)).1.fs "out/a.mp4" = false :=
  C1_render_write_failure "out/a.mp4" 2 1 (fun _ => false) (by decide) rfl

/-! ### Clamping, knot exactness and totality of `interpolate` -/

/-- All three easing options of the source fix the fraction `1`. -/
theorem applyEasing_one (e : Option Easing)
    (he : e = none ∨ e = some Easing.easeInOutQuad ∨ e = some Easing.easeInOutSin) :
    applyEasing e 1 = 1 := by
  rcases he with rfl | rfl | rfl
  · rfl
  · show (1 : ℝ) * 1 * (3 - 2 * 1) = 1
    norm_num
  · show (0.5 : ℝ) - 0.5 * Real.cos (1 * Real.pi) = 1
    rw [one_mul, Real.cos_pi]
    norm_num

/-- Dispatch form of `interpolate` on equal-length nonempty lists. -/
theorem interpolate_eq (e : Option Easing) (value t0 v0 : ℝ) (ts vs : List ℝ)
    (hlen : (t0 :: ts).length = (v0 :: vs).length) :
    interpolate value (t0 :: ts) (v0 :: vs) e =
      if value ≤ t0 then Except.ok v0
      else if (t0 :: ts).getLastD 0 ≤ value then Except.ok ((v0 :: vs).getLastD 0)
      else interpLoop value e (t0 :: ts) (v0 :: vs) := by
  unfold interpolate
  rw [if_neg (not_not_intro hlen)]

/-- The last element of a nonempty list, via `getLastD`, is a member. -/
theorem getLastD_mem (a d : ℝ) (l : List ℝ) : (a :: l).getLastD d ∈ a :: l := by
  rw [List.getLastD_eq_getLast?, List.getLast?_eq_getLast _ (List.cons_ne_nil a l),
    Option.getD_some]
  exact List.getLast_mem _

/-- `getLastD` of a list with at least two elements ignores the head. -/
theorem getLastD_cons_cons (a b d : ℝ) (l : List ℝ) :
    (a :: b :: l).getLastD d = (b :: l).getLastD d := by
  simp [List.getLastD]

/-- `getLastD` of a nonempty list is its entry at the last index. -/
theorem getLastD_eq_get (l : List ℝ) (h : l ≠ []) (hl : l.length - 1 < l.length) :
    l.getLastD 0 = l.get ⟨l.length - 1, hl⟩ := by
  rw [List.getLastD_eq_getLast?, List.getLast?_eq_getLast _ h, Option.getD_some,
    List.getLast_eq_getElem]
  rfl

/-- Hitting an interior knot: started anywhere in the walk, the loop
stops at the segment ending at the knot and returns its value exactly,
because the eased fraction at a knot is exactly `1`. -/
theorem interpLoop_knot (e : Option Easing) (he1 : applyEasing e 1 = 1) :
    ∀ (j : ℕ) (ts vs : List ℝ) (hj : j + 1 < ts.length)
      (hlen : ts.length = vs.length), List.Sorted (· < ·) ts →
      interpLoop (ts.get ⟨j + 1, hj⟩) e ts vs =
        Except.ok (vs.get ⟨j + 1, hlen ▸ hj⟩) := by
  intro j
  induction j with
  | zero =>
    intro ts vs hj hlen hsort
    rcases ts with _ | ⟨t0, ts⟩
    · simp at hj
    rcases ts with _ | ⟨t1, ts⟩
    · simp at hj
    rcases vs with _ | ⟨v0, vs⟩
    · simp at hlen
    rcases vs with _ | ⟨v1, vs⟩
    · simp at hlen
    have ht : t0 < t1 :=
      (List.sorted_cons.mp hsort).1 t1 (List.mem_cons_self t1 ts)
    show interpLoop t1 e (t0 :: t1 :: ts) (v0 :: v1 :: vs) = Except.ok v1
    rw [interpLoop, if_pos ⟨le_of_lt ht, le_refl t1⟩,
      div_self (sub_ne_zero.mpr (ne_of_gt ht)), he1]
    have : v0 + 1 * (v1 - v0) = v1 := by ring
    rw [this]
  | succ n ih =>
    intro ts vs hj hlen hsort
    rcases ts with _ | ⟨t0, ts⟩
    · simp at hj
    rcases ts with _ | ⟨t1, ts⟩
    · simp at hj
    rcases vs with _ | ⟨v0, vs⟩
    · simp at hlen
    rcases vs with _ | ⟨v1, vs⟩
    · simp at hlen
    have hj' : n + 1 < (t1 :: ts).length := by
      simp only [List.length_cons] at hj ⊢
      omega
    have hval : (t0 :: t1 :: ts).get ⟨n + 2, hj⟩ = (t1 :: ts).get ⟨n + 1, hj'⟩ := rfl
    have hgt : t1 < (t1 :: ts).get ⟨n + 1, hj'⟩ := by
      have := List.Sorted.get_strictMono hsort
        (show (⟨1, by simp⟩ : Fin (t0 :: t1 :: ts).length) < ⟨n + 2, hj⟩ by
          rw [Fin.mk_lt_mk]
          omega)
      exact this
    have hlen' : (t1 :: ts).length = (v1 :: vs).length := by
      simp only [List.length_cons] at hlen ⊢
      omega
    rw [hval, interpLoop,
      if_neg (fun hand => absurd hand.2 (not_le.mpr hgt)),
      ih (t1 :: ts) (v1 :: vs) hj' hlen' (List.sorted_cons.mp hsort).2]
    rfl

/-- Counterexample to claim C4 as stated: with merely non-decreasing
times, the duplicated-time list `[0, 0]` against values `[3, 4]` at the
query `t = 0 ≥ times[-1]` returns `values[0] = 3`, not
`values[-1] = 4` — the head clamp wins when the first and last keyframe
times coincide. -/
theorem C4_counterexample :
    [(0 : ℝ), 0].length = [(3 : ℝ), 4].length ∧
    List.Sorted (· ≤ ·) [(0 : ℝ), 0] ∧
    [(0 : ℝ), 0].getLastD 0 ≤ 0 ∧
    interpolate (0 : ℝ) [0, 0] [3, 4] none = Except.ok 3 ∧
    [(3 : ℝ), 4].getLastD 0 ≠ 3 := by
  refine ⟨rfl, ?_, ?_, ?_, ?_⟩
  · simp [List.sorted_cons]
  · simp [List.getLastD]
  · rw [interpolate_eq none 0 0 3 [0] [4] rfl, if_pos (le_refl (0 : ℝ))]
  · simp [List.getLastD]

/-- Claim C4 as amended (keyframe times strictly increasing rather than
merely non-decreasing): for equal-length lists, queries at or before the
first keyframe return the first value, queries at or after the last
return the last value (no extrapolation), and a query exactly at any
keyframe time returns that keyframe's value exactly — with no easing and
with both easing curves. -/
theorem C4_interpolate_clamp_knots (ts vs : List ℝ) (e : Option Easing)
    (hlen : ts.length = vs.length) (hne : ts ≠ [])
    (hsort : List.Sorted (· < ·) ts)
    (he : e = none ∨ e = some Easing.easeInOutQuad ∨ e = some Easing.easeInOutSin) :
    (∀ t, t ≤ ts.headD 0 → interpolate t ts vs e = Except.ok (vs.headD 0)) ∧
    (∀ t, ts.getLastD 0 ≤ t → interpolate t ts vs e = Except.ok (vs.getLastD 0)) ∧
    (∀ (j : ℕ) (hj : j < ts.length),
      interpolate (ts.get ⟨j, hj⟩) ts vs e = Except.ok (vs.get ⟨j, hlen ▸ hj⟩)) := by
  rcases ts with _ | ⟨t0, ts₁⟩
  · exact absurd rfl hne
  rcases vs with _ | ⟨v0, vs₁⟩
  · simp at hlen
  have hA : ∀ t, t ≤ ((t0 :: ts₁).headD 0) →
      interpolate t (t0 :: ts₁) (v0 :: vs₁) e = Except.ok ((v0 :: vs₁).headD 0) := by
    intro t ht
    rw [interpolate_eq e t t0 v0 ts₁ vs₁ hlen, if_pos (show t ≤ t0 from ht)]
    rfl
  have hB : ∀ t, (t0 :: ts₁).getLastD 0 ≤ t →
      interpolate t (t0 :: ts₁) (v0 :: vs₁) e = Except.ok ((v0 :: vs₁).getLastD 0) := by
    intro t ht
    rcases ts₁ with _ | ⟨t1, ts₂⟩
    · rcases vs₁ with _ | ⟨v1, vs₂⟩
      · rw [interpolate_eq e t t0 v0 [] [] hlen]
        by_cases hc : t ≤ t0
        · rw [if_pos hc]
          rfl
        · rw [if_neg hc, if_pos ht]
      · simp at hlen
    · rcases vs₁ with _ | ⟨v1, vs₂⟩
      · simp at hlen
      · have hmem : (t0 :: t1 :: ts₂).getLastD 0 ∈ t1 :: ts₂ := by
          rw [getLastD_cons_cons]
          exact getLastD_mem t1 0 ts₂
        have hlt : t0 < (t0 :: t1 :: ts₂).getLastD 0 :=
          (List.sorted_cons.mp hsort).1 _ hmem
        rw [interpolate_eq e t t0 v0 _ _ hlen,
          if_neg (not_le.mpr (lt_of_lt_of_le hlt ht)), if_pos ht]
  refine ⟨hA, hB, ?_⟩
  intro j hj
  rcases j with _ | j
  · exact hA t0 (le_refl t0)
  · by_cases hlast : j + 1 = (t0 :: ts₁).length - 1
    · have hgl : (t0 :: ts₁).getLastD 0 = (t0 :: ts₁).get ⟨j + 1, hj⟩ := by
        rw [getLastD_eq_get (t0 :: ts₁) (List.cons_ne_nil _ _) (by simp)]
        congr 1
        exact Fin.mk_eq_mk.mpr (by omega)
      have hjv : j + 1 < (v0 :: vs₁).length := hlen ▸ hj
      have hglv : (v0 :: vs₁).getLastD 0 = (v0 :: vs₁).get ⟨j + 1, hjv⟩ := by
        rw [getLastD_eq_get (v0 :: vs₁) (List.cons_ne_nil _ _) (by simp)]
        congr 1
        refine Fin.mk_eq_mk.mpr ?_
        simp only [List.length_cons] at hlast hlen ⊢
        omega
      have hres := hB _ (le_of_eq hgl)
      rw [hglv] at hres
      exact hres
    · have hv0 : t0 < (t0 :: ts₁).get ⟨j + 1, hj⟩ :=
        List.Sorted.get_strictMono hsort
          (show (⟨0, by simp⟩ : Fin (t0 :: ts₁).length) < ⟨j + 1, hj⟩ by
            rw [Fin.mk_lt_mk]
            omega)
      have hlt2 : j + 1 < (t0 :: ts₁).length - 1 := by
        simp only [List.length_cons] at hj hlast ⊢
        omega
      have hvlast : (t0 :: ts₁).get ⟨j + 1, hj⟩ < (t0 :: ts₁).getLastD 0 := by
        rw [getLastD_eq_get (t0 :: ts₁) (List.cons_ne_nil _ _) (by simp)]
        exact List.Sorted.get_strictMono hsort (Fin.mk_lt_mk.mpr hlt2)
      rw [interpolate_eq e _ t0 v0 _ _ hlen,
        if_neg (not_le.mpr hv0), if_neg (not_le.mpr hvlast),
        interpLoop_knot e (applyEasing_one e he) j _ _ hj hlen hsort]

/-- Concrete instance of the amended C4 on the strictly increasing
schedule `[0, 1, 2] → [10, 20, 30]`: clamp below, clamp above, and the
interior knot at `t = 1`. -/
theorem C4_witness :
    interpolate (-5 : ℝ) [0, 1, 2] [10, 20, 30] none = Except.ok 10 ∧
    interpolate (99 : ℝ) [0, 1, 2] [10, 20, 30] none = Except.ok 30 ∧
    interpolate (1 : ℝ) [0, 1, 2] [10, 20, 30] none = Except.ok 20 := by
  have h := C4_interpolate_clamp_knots [0, 1, 2] [10, 20, 30] none rfl
    (List.cons_ne_nil _ _) (by norm_num [List.sorted_cons]) (Or.inl rfl)
  refine ⟨?_, ?_, ?_⟩
  · have := h.1 (-5) (by norm_num [List.headD])
    simpa using this
  · have := h.2.1 99 (by simp [List.getLastD]; norm_num)
    simpa [List.getLastD] using this
  · have := h.2.2 1 (by norm_num)
    simpa using this

/-- For a query strictly after the head and at or before the last time,
the segment scan always finds a bracketing segment and returns a value
(non-decreasing times suffice). -/
theorem interpLoop_ok (e : Option Easing) :
    ∀ (ts vs : List ℝ) (t : ℝ), ts.length = vs.length → 2 ≤ ts.length →
      ts.headD 0 < t → t ≤ ts.getLastD 0 →
      ∃ r, interpLoop t e ts vs = Except.ok r
  | [], _, _, _, h2, _, _ => by simp at h2
  | [_], _, _, _, h2, _, _ => by simp at h2
  | _ :: _ :: _, [], _, hlen, _, _, _ => by simp at hlen
  | _ :: _ :: _, [_], _, hlen, _, _, _ => by
    simp only [List.length_cons, List.length_nil] at hlen
    omega
  | t0 :: t1 :: ts', v0 :: v1 :: vs', t, hlen, _, hhead, hlast => by
    by_cases hc : t ≤ t1
    · exact ⟨_, by rw [interpLoop, if_pos ⟨le_of_lt hhead, hc⟩]⟩
    · rcases ts' with _ | ⟨t2, ts''⟩
      · exact absurd hlast hc
      · obtain ⟨r, hr⟩ := interpLoop_ok e (t1 :: t2 :: ts'') (v1 :: vs') t
          (by simp only [List.length_cons] at hlen ⊢; omega) (by simp)
          (not_le.mp hc) hlast
        exact ⟨r, by rw [interpLoop, if_neg (fun hand => hc hand.2), hr]⟩

/-- Claim C10: on equal-length, non-empty keyframe lists with
non-decreasing times, `interpolate` never reaches its final
out-of-range error branch — it returns a value for every query — and in
the single-keyframe case it returns the single value for every query. -/
theorem C10_interpolate_total (ts vs : List ℝ) (e : Option Easing) (t : ℝ)
    (hlen : ts.length = vs.length) (hne : ts ≠ [])
    (hsort : List.Sorted (· ≤ ·) ts) :
    (∃ r, interpolate t ts vs e = Except.ok r) ∧
    (ts.length = 1 → interpolate t ts vs e = Except.ok (vs.headD 0)) := by
  rcases ts with _ | ⟨t0, ts₁⟩
  · exact absurd rfl hne
  rcases vs with _ | ⟨v0, vs₁⟩
  · simp at hlen
  constructor
  · rw [interpolate_eq e t t0 v0 ts₁ vs₁ hlen]
    by_cases h1 : t ≤ t0
    · rw [if_pos h1]
      exact ⟨v0, rfl⟩
    · rw [if_neg h1]
      by_cases h2 : (t0 :: ts₁).getLastD 0 ≤ t
      · rw [if_pos h2]
        exact ⟨_, rfl⟩
      · rw [if_neg h2]
        refine interpLoop_ok e (t0 :: ts₁) (v0 :: vs₁) t hlen ?_ (not_le.mp h1)
          (le_of_not_le h2)
        rcases ts₁ with _ | ⟨t1, ts₂⟩
        · exact absurd (le_of_not_le h1) h2
        · simp
  · intro hone
    rcases ts₁ with _ | ⟨t1, ts₂⟩
    · rcases vs₁ with _ | ⟨v1, vs₂⟩
      · rw [interpolate_eq e t t0 v0 [] [] hlen]
        by_cases h1 : t ≤ t0
        · rw [if_pos h1]
          rfl
        · rw [if_neg h1,
            if_pos (show [t0].getLastD 0 ≤ t from le_of_not_le h1)]
          rfl
      · simp at hlen
    · simp at hone

/-- Concrete instance of C10: a two-point schedule yields a value for an
interior query, and a single-keyframe schedule returns its single value
far outside the range. -/
theorem C10_witness :
    (∃ r, interpolate (1/2 : ℝ) [0, 1] [5, 7] none = Except.ok r) ∧
    interpolate (42 : ℝ) [3] [9] none = Except.ok 9 := by
  refine ⟨(C10_interpolate_total [0, 1] [5, 7] none (1/2) rfl (List.cons_ne_nil _ _)
      (by norm_num [List.sorted_cons])).1, ?_⟩
  have h := (C10_interpolate_total [3] [9] none 42 rfl (List.cons_ne_nil _ _)
      (by simp [List.sorted_cons])).2 rfl
  simpa using h

end ReactionsGenerator
